import Mathlib

/-!
Verification of `Utilities/Scripts/python_package_updater.py`.

Texts (file contents, package names, lines) are modelled as `List Char`,
written `Str` below.  The script's pure core is translated function by
function; effectful parts are shallowly embedded:

  * the directory walk becomes an explicit list of `(filepath, contents)`
    pairs,
  * the PyPI JSON query becomes a function
    `releases : Str → Str → List ReleaseFile` mapping a package name and a
    version to the release-file descriptors,
  * `sys.exit` becomes the numeric exit code of `main` (a `sys.exit`
    called with a string exits with code 1),
  * Python's `re.sub` on the pattern `(# \[name\]).*?(# \[/name\])` with
    `re.DOTALL` is modelled by `reSub` below: leftmost scanning, literal
    match of the opening tag, lazy (shortest) gap up to the closing tag,
    all non-overlapping matches replaced, scanning resuming after each
    replaced span.  The replacement string produced by the script contains
    a backslash only directly before a newline, which `re.sub` copies
    verbatim, so the replacement is modelled as literal text.  Package
    names are treated as literal text in the pattern (faithful for names
    without regex metacharacters).
-/

abbrev Str := List Char

/-- Python's `\s` (ASCII range), used by `str.split`, `str.strip` and the
validator regex. -/
def isPySpace (c : Char) : Bool :=
  c = ' ' || c = '\t' || c = '\n' || c = '\r' || c = '\x0b' || c = '\x0c'

/-- Prefix test: `isPfx p s` is true iff `p` is a contiguous prefix of `s`. -/
def isPfx : Str → Str → Bool
  | [], _ => true
  | _ :: _, [] => false
  | a :: p, b :: s => decide (a = b) && isPfx p s

/-- First occurrence of `pat` inside `s`: returns `some (a, b)` with
`s = a ++ pat ++ b` and `a` shortest, `none` when `pat` does not occur. -/
def splitFirst (pat : Str) : Str → Option (Str × Str)
  | [] => if pat.isEmpty then some ([], []) else none
  | c :: s' =>
    if isPfx pat (c :: s') then some ([], (c :: s').drop pat.length)
    else (splitFirst pat s').map (fun x => (c :: x.1, x.2))

/-- Boolean substring test, models Python's `in` on strings. -/
def containsSub (pat s : Str) : Bool := (splitFirst pat s).isSome

/-- Boolean suffix test, models Python's `str.endswith`. -/
def isSfx (p s : Str) : Bool := isPfx p.reverse s.reverse

/-- Split a text on newline characters (`re.MULTILINE` line structure). -/
def splitOnNl : Str → List Str
  | [] => [[]]
  | c :: s =>
    match splitOnNl s with
    | [] => [[c]]
    | l :: ls => if c = '\n' then [] :: l :: ls else (c :: l) :: ls

/-- Grouping `s -> (s0, s1), (s2, s3), ...` — the `_pairwise` helper of
`validate_external_project_python_package_hints`; a trailing unmatched
element is dropped, exactly like `zip(a, a)` on an odd-length iterable. -/
def pairwise {α : Type} : List α → List (α × α)
  | a :: b :: rest => (a, b) :: pairwise rest
  | _ => []

/-- Python's `sep.join(strs)`. -/
def joinSep (sep : Str) : List Str → Str
  | [] => []
  | [x] => x
  | x :: y :: t => x ++ sep ++ joinSep sep (y :: t)

/-- One step of Python's argumentless `str.split` (whitespace
tokenisation), folded from the right: the accumulator is the token list to
the right together with the token currently being built. -/
def pySplitF (c : Char) (acc : List Str × Str) : List Str × Str :=
  if isPySpace c then (if acc.2.isEmpty then acc else (acc.2 :: acc.1, []))
  else (acc.1, c :: acc.2)

/-- Python's argumentless `str.split`: split on runs of whitespace,
dropping empty tokens. -/
def pySplit (l : Str) : List Str :=
  let p := l.foldr pySplitF ([], [])
  if p.2.isEmpty then p.1 else p.2 :: p.1

/-- Test for `line.strip() == ""`. -/
def isBlankAfterStrip (l : Str) : Bool := l.all isPySpace

/-- Assignment `d[k] = v` on an insertion-ordered Python dict: overwrite in
place when the key exists, append otherwise. -/
def dictInsert (k : Str) (v : Str × Str) : List (Str × Str × Str) → List (Str × Str × Str)
  | [] => [(k, v)]
  | e :: d => if e.1 = k then (k, v) :: d else e :: dictInsert k v d

/-! Listing Parser: `parse_pip_list_output` (source lines 33-47). -/

/-- Body of the parsing loop of `parse_pip_list_output`, applied to the
sequence of visited lines (indices `2 .. len-2` of the input).  Processing
stops at the first blank line; a non-blank row with fewer than two
whitespace-separated tokens would raise an uncaught `IndexError` in the
script, modelled by `none`.  A three-or-more-column row
`name cur latest ...` maps `name` to `(cur, latest)`, a two-column row
`name cur` maps `name` to `(cur, cur)`; dict assignment keeps the last
occurrence. -/
def parse_pip_rows (packages : List (Str × Str × Str)) : List Str → Option (List (Str × Str × Str))
  | [] => some packages
  | line :: rest =>
    if isBlankAfterStrip line then some packages
    else
      match pySplit line with
      | package_name :: current_version :: details =>
        parse_pip_rows (dictInsert package_name (current_version, details.headD current_version) packages) rest
      | _ => none

/-- Translation of `parse_pip_list_output`: the loop
`for i in range(2, len(packages_to_update) - 1)` visits exactly the lines
`(packages_to_update.drop 2).dropLast` — the first two lines are skipped as
headings and the final line is skipped unconditionally (the script assumes
it is the empty string left by a trailing newline). -/
def parse_pip_list_output (packages_to_update : List Str) : Option (List (Str × Str × Str)) :=
  parse_pip_rows [] ((packages_to_update.drop 2).dropLast)

/-! Delimiter Validator: `validate_external_project_python_package_hints`
(source lines 62-99).  The regex is
`^\s*# \[(\/?[\w\-\])\])]+)\]$` with `re.MULTILINE`: since the captured
part cannot contain a newline and a hint line cannot be absorbed by the
leading `\s*` of another match, `re.findall` returns, line by line, the
capture of every line consisting of optional whitespace, then the text
`# [`, then the capture (an optional `/` followed by one or more
characters from the class word/`-`/`]`/`)`), then `]` at end of line. -/

/-- Python regex `\w` (restricted to ASCII, the only case exercised). -/
def isWordChar (c : Char) : Bool := c.isAlphanum || c = '_'

/-- Character class `[\w\-\])]` of the hint regex: word characters,
dash, closing bracket, closing parenthesis. -/
def isHintIdentChar (c : Char) : Bool := isWordChar c || c = '-' || c = ']' || c = ')'

/-- Capture group `\/?[\w\-\])\])]+`: optional leading slash, then one or
more class characters. -/
def hint_body_ok : Str → Bool
  | '/' :: t => !t.isEmpty && t.all isHintIdentChar
  | t => !t.isEmpty && t.all isHintIdentChar

/-- Per-line evaluation of the hint regex: `some capture` when the line
matches, `none` otherwise. -/
def hint_of_line (line : Str) : Option Str :=
  match line.dropWhile isPySpace with
  | '#' :: ' ' :: '[' :: rest =>
    match rest.reverse with
    | ']' :: revBody =>
      if hint_body_ok revBody.reverse then some revBody.reverse else none
    | _ => none
  | _ => none

/-- Hint tokens of one file, in file order (the `re.findall` result). -/
def file_hints (text : Str) : List Str := (splitOnNl text).filterMap hint_of_line

/-- Mismatches contributed by one file: consecutive hint tokens are
grouped pairwise and a pair is reported iff `first != second[1:]`, with
the tuple `(filepath, first, second[1:])`. -/
def file_hint_mismatches (filepath text : Str) : List (Str × Str × Str) :=
  (pairwise (file_hints text)).filterMap
    (fun pr => if pr.1 = pr.2.drop 1 then none else some (filepath, pr.1, pr.2.drop 1))

/-- Translation of `validate_external_project_python_package_hints`; the
directory walk is shallowly embedded as the list of
`(filepath, contents)` pairs it yields. -/
def validate_external_project_python_package_hints (files : List (Str × Str)) : List (Str × Str × Str) :=
  (files.map (fun f => file_hint_mismatches f.1 f.2)).flatten

/-- Translation of `hint_validation_mismatch_summary`. -/
def hint_validation_mismatch_summary (mismatches : List (Str × Str × Str)) : Str :=
  joinSep ['\n'] (mismatches.map (fun m => m.1 ++ '\n' :: ' ' :: ' ' :: (m.2.1 ++ " != ".data ++ m.2.2)))

/-! Release Selector and Block Rewriter:
`update_external_project_python_packages` (source lines 102-176). -/

/-- One release-file descriptor from the PyPI JSON (the fields the script
reads). -/
structure ReleaseFile where
  filename : Str
  python_version : Str
  packagetype : Str
  sha256 : Str

/-- Filter applied to each release file of the desired version, combining
the three `continue` conditions of the loop: keep the file iff its
`python_version` is `py3`, `py2.py3` or the target CPython tag, or its
filename contains `abi3`; and its `packagetype` is `bdist_wheel`; and its
filename ends with `py3-none-any.whl`, `64.whl` or `universal2.whl`. -/
def keep_release_file (cpython_tag : Str) (rf : ReleaseFile) : Bool :=
  (rf.python_version = "py3".data || rf.python_version = "py2.py3".data ||
      rf.python_version = cpython_tag || containsSub "abi3".data rf.filename) &&
    rf.packagetype = "bdist_wheel".data &&
    (isSfx "py3-none-any.whl".data rf.filename || isSfx "64.whl".data rf.filename ||
      isSfx "universal2.whl".data rf.filename)

/-- The `filenames` / `hashes` accumulation loop over
`desired_version_files`: for every kept release file, append the comment
line `  #  - <filename>` and the argument `--hash=sha256:<digest>`. -/
def collect_release_files (cpython_tag : Str) : List ReleaseFile → List Str × List Str
  | [] => ([], [])
  | rf :: rest =>
    if keep_release_file cpython_tag rf then
      let p := collect_release_files cpython_tag rest
      (("  #  - ".data ++ rf.filename) :: p.1, ("--hash=sha256:".data ++ rf.sha256) :: p.2)
    else collect_release_files cpython_tag rest

/-- Version-pin prefix `"  <name>==<version> "` (indentation of two
spaces, trailing space included), the `simple_package_version` string. -/
def simple_package_version (package_name desired_version : Str) : Str :=
  "  ".data ++ package_name ++ "==".data ++ desired_version ++ [' ']

/-- The `hashes_joiner_text` separator: a space, a backslash, a newline,
then exactly `(simple_package_version ...).length` spaces so the hash
arguments line up vertically. -/
def hashes_joiner_text (package_name desired_version : Str) : Str :=
  " \\\n".data ++ List.replicate (simple_package_version package_name desired_version).length ' '

/-- The `all_hashes` string: the version-pin prefix followed by the hash
arguments joined with `hashes_joiner_text`. -/
def all_hashes (package_name desired_version : Str) (hashes : List Str) : Str :=
  simple_package_version package_name desired_version ++
    joinSep (hashes_joiner_text package_name desired_version) hashes

/-- Text generated for one package (the `text` variable): `none` models
the per-package error-and-skip when no release file survives filtering;
the comment header naming the wheel filenames is prepended only when more
than one release file survived. -/
def generated_package_text (cpython_tag package_name desired_version : Str)
    (release_files : List ReleaseFile) : Option Str :=
  let c := collect_release_files cpython_tag release_files
  if c.2.isEmpty then none
  else if 1 < c.1.length then
    some (joinSep ['\n'] ("  # Hashes correspond to the following packages:".data :: c.1) ++
      '\n' :: all_hashes package_name desired_version c.2)
  else some (all_hashes package_name desired_version c.2)

/-- First loop of `update_external_project_python_packages`, building the
`lines_to_write` mapping in iteration order: packages named `vtk` or
`simpleitk` are skipped before any index query; the desired version is
the latest version when the target CPython tag equals the tag of the
running interpreter and the current version otherwise; the stored value
is the generated text plus a trailing newline. -/
def lines_to_write (cpython_tag interpreter_cpython_tag : Str)
    (releases : Str → Str → List ReleaseFile) : List (Str × Str × Str) → List (Str × Str)
  | [] => []
  | (package_name, current_version, latest_version) :: rest =>
    if package_name = "vtk".data ∨ package_name = "simpleitk".data then
      lines_to_write cpython_tag interpreter_cpython_tag releases rest
    else
      let desired_version := if cpython_tag = interpreter_cpython_tag then latest_version else current_version
      match generated_package_text cpython_tag package_name desired_version
          (releases package_name desired_version) with
      | none => lines_to_write cpython_tag interpreter_cpython_tag releases rest
      | some text =>
        (package_name, text ++ ['\n']) :: lines_to_write cpython_tag interpreter_cpython_tag releases rest

/-- Opening delimiter `# [name]`. -/
def python_package_open_hint (package_name : Str) : Str :=
  '#' :: ' ' :: '[' :: (package_name ++ [']'])

/-- Closing delimiter `# [/name]`. -/
def python_package_close_hint (package_name : Str) : Str :=
  '#' :: ' ' :: '[' :: '/' :: (package_name ++ [']'])

/-- Replacement text for one matched span: the opening tag, a newline, the
stored line (generated text plus newline), two spaces of indentation, the
closing tag. -/
def python_package_replacement (package_name updated_line : Str) : Str :=
  python_package_open_hint package_name ++ '\n' :: updated_line ++
    ' ' :: ' ' :: python_package_close_hint package_name

/-- Fuelled model of `re.sub` with a lazy DOTALL gap: at each position,
when the opening tag is a prefix and the closing tag occurs in the
remainder, the span up to the first closing-tag occurrence is replaced
and scanning resumes after it; otherwise one character is emitted.  Any
fuel at least the length of the text gives the fixpoint semantics. -/
def reSubF (opn cls rep : Str) : Nat → Str → Str
  | _, [] => []
  | 0, s => s
  | Nat.succ f, c :: s' =>
    if isPfx opn (c :: s') then
      match splitFirst cls ((c :: s').drop opn.length) with
      | some x => rep ++ reSubF opn cls rep f x.2
      | none => c :: reSubF opn cls rep f s'
    else c :: reSubF opn cls rep f s'

/-- Model of `re.sub(pattern, rep, s, flags=re.DOTALL)` for the pattern
built from `opn` and `cls`. -/
def reSub (opn cls rep s : Str) : Str := reSubF opn cls rep s.length s

/-- Leftmost match of the pattern: `some (p, g, r)` means
`s = p ++ opn ++ g ++ cls ++ r` with the earliest possible start and the
shortest possible gap `g`; `none` means the pattern does not match. -/
def findMatch (opn cls : Str) : Str → Option (Str × Str × Str)
  | [] => none
  | c :: s' =>
    if isPfx opn (c :: s') then
      match splitFirst cls ((c :: s').drop opn.length) with
      | some x => some ([], x.1, x.2)
      | none => (findMatch opn cls s').map (fun y => (c :: y.1, y.2))
    else (findMatch opn cls s').map (fun y => (c :: y.1, y.2))

/-- One `re.sub` call of the rewriting loop, for package `package_name`
whose stored line is `updated_line`. -/
def substitute_package_block (package_name updated_line text : Str) : Str :=
  reSub (python_package_open_hint package_name) (python_package_close_hint package_name)
    (python_package_replacement package_name updated_line) text

/-- Inner loop over `lines_to_write.items()`: the file text after all
per-package substitutions (the content finally written to disk). -/
def update_file_text (lns : List (Str × Str)) (text : Str) : Str :=
  lns.foldl (fun t e => substitute_package_block e.1 e.2 t) text

/-- Translation of `update_external_project_python_packages`: build
`lines_to_write`, then rewrite every file of the tree. -/
def update_external_project_python_packages (cpython_tag interpreter_cpython_tag : Str)
    (releases : Str → Str → List ReleaseFile) (packages_to_update : List (Str × Str × Str))
    (files : List (Str × Str)) : List (Str × Str) :=
  let lns := lines_to_write cpython_tag interpreter_cpython_tag releases packages_to_update
  files.map (fun f => (f.1, update_file_text lns f.2))

/-- Orchestration skeleton of `main` (source lines 207-232): validation
always runs first; when `--validate` was passed or any mismatch exists the
process exits immediately — with code 0 when the mismatch list is empty
and code 1 otherwise (`sys.exit` on the summary string) — and no file is
touched; otherwise the listing/selector/rewrite phase (abstracted as
`update_phase`) runs and the process ends with code 0.  The result is the
exit code together with the final on-disk contents. -/
def script_main (validate : Bool) (files : List (Str × Str))
    (update_phase : List (Str × Str) → List (Str × Str)) : Nat × List (Str × Str) :=
  let mismatches := validate_external_project_python_package_hints files
  if validate = true ∨ mismatches ≠ [] then
    (if mismatches = [] then 0 else 1, files)
  else (0, update_phase files)

/-! Lemmas about the string utilities. -/

theorem isPfx_iff : ∀ p s : Str, isPfx p s = true ↔ ∃ t, s = p ++ t
  | [], s => by simp [isPfx]
  | a :: p, [] => by simp [isPfx]
  | a :: p, b :: s => by
    simp only [isPfx, Bool.and_eq_true, decide_eq_true_eq]
    constructor
    · rintro ⟨rfl, h⟩
      obtain ⟨t, rfl⟩ := (isPfx_iff p s).mp h
      exact ⟨t, rfl⟩
    · rintro ⟨t, ht⟩
      injection ht with h1 h2
      subst h1
      exact ⟨rfl, (isPfx_iff p s).mpr ⟨t, h2⟩⟩

theorem splitFirst_some_decomp {pat : Str} :
    ∀ {s a b : Str}, splitFirst pat s = some (a, b) → s = a ++ pat ++ b := by
  intro s
  induction s with
  | nil =>
    intro a b h
    simp only [splitFirst] at h
    split at h
    · next hp =>
      injection h with h'
      injection h' with h1 h2
      subst h1; subst h2
      simp [List.isEmpty_iff.mp hp]
    · exact absurd h (by simp)
  | cons c s' ih =>
    intro a b h
    simp only [splitFirst] at h
    split at h
    · next hp =>
      obtain ⟨t, ht⟩ := (isPfx_iff pat (c :: s')).mp hp
      injection h with h'
      injection h' with h1 h2
      subst h1
      subst h2
      rw [ht, List.drop_left]
      simp
    · next hp =>
      rcases hx : splitFirst pat s' with _ | x
      · rw [hx] at h; exact absurd h (by simp)
      · rw [hx] at h
        simp only [Option.map_some'] at h
        have hd := ih hx
        rcases x with ⟨x1, x2⟩
        injection h with h'
        cases h'
        rw [hd]
        simp

theorem splitFirst_min {pat : Str} :
    ∀ {s a b : Str}, splitFirst pat s = some (a, b) →
      ∀ a' b', s = a' ++ pat ++ b' → a.length ≤ a'.length := by
  intro s
  induction s with
  | nil =>
    intro a b h a' b' _
    simp only [splitFirst] at h
    split at h
    · injection h with h'
      injection h' with h1 _
      subst h1
      simp
    · exact absurd h (by simp)
  | cons c s' ih =>
    intro a b h a' b' hs
    simp only [splitFirst] at h
    split at h
    · injection h with h'
      injection h' with h1 _
      subst h1
      simp
    · next hp =>
      rcases hx : splitFirst pat s' with _ | ⟨x1, x2⟩
      · rw [hx] at h; exact absurd h (by simp)
      · rw [hx] at h
        simp only [Option.map_some'] at h
        injection h with h'
        injection h' with h1 _
        subst h1
        rcases a' with _ | ⟨a0, a'⟩
        · exact absurd ((isPfx_iff pat (c :: s')).mpr ⟨b', by simpa using hs⟩) hp
        · simp only [List.cons_append] at hs
          injection hs with _ hs'
          simpa using Nat.succ_le_succ (ih hx a' b' hs')

theorem splitFirst_none {pat : Str} :
    ∀ {s : Str}, splitFirst pat s = none → ∀ a b, s ≠ a ++ pat ++ b := by
  intro s
  induction s with
  | nil =>
    intro h a b hs
    simp only [splitFirst] at h
    split at h
    · exact absurd h (by simp)
    · next hp =>
      obtain ⟨hap, hb⟩ := List.append_eq_nil.mp hs.symm
      obtain ⟨ha, hpat⟩ := List.append_eq_nil.mp hap
      rw [hpat] at hp
      simp at hp
  | cons c s' ih =>
    intro h a b hs
    simp only [splitFirst] at h
    split at h
    · exact absurd h (by simp)
    · next hp =>
      rcases a with _ | ⟨a0, a'⟩
      · exact absurd ((isPfx_iff pat (c :: s')).mpr ⟨b, by simpa using hs⟩) hp
      · simp only [List.cons_append] at hs
        injection hs with _ hs'
        rcases hx : splitFirst pat s' with _ | x
        · exact ih hx a' b hs'
        · rw [hx] at h; exact absurd h (by simp)

theorem splitFirst_suffix_le {pat s a b : Str} (h : splitFirst pat s = some (a, b)) :
    b.length ≤ s.length := by
  have := splitFirst_some_decomp h
  subst this
  simp only [List.length_append]
  omega

theorem splitFirst_self_append : ∀ (pat u : Str), splitFirst pat (pat ++ u) = some ([], u)
  | [], [] => by simp [splitFirst]
  | [], c :: u' => by simp [splitFirst, isPfx]
  | p0 :: p', u => by
    rw [show (p0 :: p') ++ u = p0 :: (p' ++ u) from rfl]
    rw [splitFirst]
    rw [if_pos ((isPfx_iff _ _).mpr ⟨u, by simp⟩)]
    rw [show p0 :: (p' ++ u) = (p0 :: p') ++ u from rfl, List.drop_left]

theorem pfx_within {pat x u : Str} (hle : pat.length ≤ x.length)
    (h : ∃ t, x ++ u = pat ++ t) : ∃ b, x = pat ++ b := by
  obtain ⟨t, ht⟩ := h
  refine ⟨x.drop pat.length, ?_⟩
  have h1 : (x ++ u).take pat.length = pat := by rw [ht, List.take_left]
  have h2 : (x ++ u).take pat.length = x.take pat.length := List.take_append_of_le_length hle
  conv_lhs => rw [← List.take_append_drop pat.length x]
  rw [← h2, h1]

theorem splitFirst_exact {pat : Str} :
    ∀ {mid : Str}, (∀ a b, mid ++ pat = (a ++ pat) ++ b → a = mid) →
      ∀ u, splitFirst pat ((mid ++ pat) ++ u) = some (mid, u) := by
  intro mid
  induction mid with
  | nil =>
    intro _ u
    simpa using splitFirst_self_append pat u
  | cons c mid' ih =>
    intro H u
    have hsh : ((c :: mid') ++ pat) ++ u = c :: ((mid' ++ pat) ++ u) := by simp
    rw [hsh, splitFirst]
    have hnp : ¬ isPfx pat (c :: ((mid' ++ pat) ++ u)) = true := by
      intro hp
      have hx : ∃ b, (c :: mid') ++ pat = pat ++ b := by
        apply pfx_within (by simp only [List.length_append, List.length_cons]; omega)
        obtain ⟨t, ht⟩ := (isPfx_iff _ _).mp hp
        refine ⟨t, ?_⟩
        rw [hsh]
        exact ht
      obtain ⟨b, hb⟩ := hx
      have := H [] b (by simpa using hb)
      exact absurd this (by simp)
    rw [if_neg hnp]
    have H' : ∀ a b, mid' ++ pat = (a ++ pat) ++ b → a = mid' := by
      intro a b hab
      have hstep : (c :: mid') ++ pat = ((c :: a) ++ pat) ++ b := by
        simp only [List.cons_append]
        rw [hab]
      have hca := H (c :: a) b hstep
      injection hca
    rw [ih H' u]
    rfl

/-! Lemmas about `findMatch`. -/

theorem findMatch_some_decomp {opn cls : Str} :
    ∀ {s p g r : Str}, findMatch opn cls s = some (p, g, r) →
      s = ((p ++ opn) ++ g) ++ cls ++ r := by
  intro s
  induction s with
  | nil => intro p g r h; exact absurd h (by simp [findMatch])
  | cons c s' ih =>
    intro p g r h
    simp only [findMatch] at h
    split at h
    · next hp =>
      rcases hx : splitFirst cls ((c :: s').drop opn.length) with _ | x
      · rw [hx] at h; simp only [Option.map] at h
        rcases hy : findMatch opn cls s' with _ | y
        · rw [hy] at h; exact absurd h (by simp)
        · rw [hy] at h
          simp only [Option.map_some'] at h
          rcases y with ⟨y1, y2, y3⟩
          injection h with h'
          cases h'
          have := ih hy
          rw [this]
          simp
      · rw [hx] at h
        injection h with h'
        rcases x with ⟨x1, x2⟩
        cases h'
        obtain ⟨t, ht⟩ := (isPfx_iff _ _).mp hp
        have hd : (c :: s').drop opn.length = t := by rw [ht, List.drop_left]
        rw [hd] at hx
        have := splitFirst_some_decomp hx
        rw [ht, this]
        simp
    · next hp =>
      rcases hy : findMatch opn cls s' with _ | y
      · rw [hy] at h; exact absurd h (by simp)
      · rw [hy] at h
        simp only [Option.map_some'] at h
        rcases y with ⟨y1, y2, y3⟩
        injection h with h'
        cases h'
        have := ih hy
        rw [this]
        simp

/-! Step lemmas for `reSubF`, `findMatch` and `reSub`. -/

theorem reSubF_cons_match {opn cls rep : Str} {f : Nat} {c : Char} {s' g r : Str}
    (hp : isPfx opn (c :: s') = true)
    (hx : splitFirst cls ((c :: s').drop opn.length) = some (g, r)) :
    reSubF opn cls rep (f + 1) (c :: s') = rep ++ reSubF opn cls rep f r := by
  simp only [reSubF]
  rw [if_pos hp, hx]

theorem reSubF_cons_nosplit {opn cls rep : Str} {f : Nat} {c : Char} {s' : Str}
    (hp : isPfx opn (c :: s') = true)
    (hx : splitFirst cls ((c :: s').drop opn.length) = none) :
    reSubF opn cls rep (f + 1) (c :: s') = c :: reSubF opn cls rep f s' := by
  simp only [reSubF]
  rw [if_pos hp, hx]

theorem reSubF_cons_nopfx {opn cls rep : Str} {f : Nat} {c : Char} {s' : Str}
    (hp : ¬ isPfx opn (c :: s') = true) :
    reSubF opn cls rep (f + 1) (c :: s') = c :: reSubF opn cls rep f s' := by
  simp only [reSubF]
  rw [if_neg hp]

theorem findMatch_cons_match {opn cls : Str} {c : Char} {s' g r : Str}
    (hp : isPfx opn (c :: s') = true)
    (hx : splitFirst cls ((c :: s').drop opn.length) = some (g, r)) :
    findMatch opn cls (c :: s') = some ([], g, r) := by
  simp only [findMatch]
  rw [if_pos hp, hx]

theorem findMatch_cons_nosplit {opn cls : Str} {c : Char} {s' : Str}
    (hp : isPfx opn (c :: s') = true)
    (hx : splitFirst cls ((c :: s').drop opn.length) = none) :
    findMatch opn cls (c :: s') = (findMatch opn cls s').map (fun y => (c :: y.1, y.2)) := by
  simp only [findMatch]
  rw [if_pos hp, hx]

theorem findMatch_cons_nopfx {opn cls : Str} {c : Char} {s' : Str}
    (hp : ¬ isPfx opn (c :: s') = true) :
    findMatch opn cls (c :: s') = (findMatch opn cls s').map (fun y => (c :: y.1, y.2)) := by
  simp only [findMatch]
  rw [if_neg hp]

theorem reSubF_mono {opn cls rep : Str} (hopn : opn ≠ []) :
    ∀ (f₁ f₂ : Nat) (s : Str), s.length ≤ f₁ → s.length ≤ f₂ →
      reSubF opn cls rep f₁ s = reSubF opn cls rep f₂ s := by
  intro f₁
  induction f₁ with
  | zero =>
    intro f₂ s h1 _
    have hs : s = [] := List.length_eq_zero.mp (Nat.le_zero.mp h1)
    subst hs
    cases f₂ <;> rfl
  | succ f ih =>
    intro f₂ s h1 h2
    cases s with
    | nil => cases f₂ <;> rfl
    | cons c s' =>
      cases f₂ with
      | zero => simp at h2
      | succ f₂' =>
        have hlen : s'.length ≤ f := by simpa using h1
        have hlen₂ : s'.length ≤ f₂' := by simpa using h2
        by_cases hp : isPfx opn (c :: s') = true
        · rcases hx : splitFirst cls ((c :: s').drop opn.length) with _ | ⟨g, r⟩
          · rw [reSubF_cons_nosplit hp hx, reSubF_cons_nosplit hp hx,
              ih f₂' s' hlen hlen₂]
          · have hr : r.length ≤ s'.length := by
              have h3 := splitFirst_suffix_le hx
              have h4 : ((c :: s').drop opn.length).length ≤ s'.length := by
                rcases opn with _ | ⟨o, opn'⟩
                · exact absurd rfl hopn
                · simp only [List.length_drop, List.length_cons]
                  omega
              omega
            rw [reSubF_cons_match hp hx, reSubF_cons_match hp hx,
              ih f₂' r (le_trans hr hlen) (le_trans hr hlen₂)]
        · rw [reSubF_cons_nopfx hp, reSubF_cons_nopfx hp, ih f₂' s' hlen hlen₂]

theorem reSub_cons_match {opn cls rep : Str} {c : Char} {s' g r : Str} (hopn : opn ≠ [])
    (hp : isPfx opn (c :: s') = true)
    (hx : splitFirst cls ((c :: s').drop opn.length) = some (g, r)) :
    reSub opn cls rep (c :: s') = rep ++ reSub opn cls rep r := by
  have hr : r.length ≤ s'.length := by
    have h3 := splitFirst_suffix_le hx
    have h4 : ((c :: s').drop opn.length).length ≤ s'.length := by
      rcases opn with _ | ⟨o, opn'⟩
      · exact absurd rfl hopn
      · simp only [List.length_drop, List.length_cons]
        omega
    omega
  show reSubF opn cls rep (s'.length + 1) (c :: s') = rep ++ reSubF opn cls rep r.length r
  rw [reSubF_cons_match hp hx, reSubF_mono hopn s'.length r.length r hr (le_refl _)]

theorem reSub_cons_nosplit {opn cls rep : Str} {c : Char} {s' : Str}
    (hp : isPfx opn (c :: s') = true)
    (hx : splitFirst cls ((c :: s').drop opn.length) = none) :
    reSub opn cls rep (c :: s') = c :: reSub opn cls rep s' := by
  show reSubF opn cls rep (s'.length + 1) (c :: s') = c :: reSubF opn cls rep s'.length s'
  rw [reSubF_cons_nosplit hp hx]

theorem reSub_cons_nopfx {opn cls rep : Str} {c : Char} {s' : Str}
    (hp : ¬ isPfx opn (c :: s') = true) :
    reSub opn cls rep (c :: s') = c :: reSub opn cls rep s' := by
  show reSubF opn cls rep (s'.length + 1) (c :: s') = c :: reSubF opn cls rep s'.length s'
  rw [reSubF_cons_nopfx hp]

theorem findMatch_none_reSub {opn cls rep : Str} :
    ∀ {s : Str}, findMatch opn cls s = none → reSub opn cls rep s = s := by
  intro s
  induction s with
  | nil => intro _; rfl
  | cons c s' ih =>
    intro h
    by_cases hp : isPfx opn (c :: s') = true
    · rcases hx : splitFirst cls ((c :: s').drop opn.length) with _ | ⟨g, r⟩
      · rw [findMatch_cons_nosplit hp hx] at h
        rw [reSub_cons_nosplit hp hx, ih (by simpa using h)]
      · rw [findMatch_cons_match hp hx] at h
        exact absurd h (by simp)
    · rw [findMatch_cons_nopfx hp] at h
      rw [reSub_cons_nopfx hp, ih (by simpa using h)]

theorem reSub_of_findMatch_some {opn cls rep : Str} (hopn : opn ≠ []) :
    ∀ {s p g r : Str}, findMatch opn cls s = some (p, g, r) →
      reSub opn cls rep s = (p ++ rep) ++ reSub opn cls rep r := by
  intro s
  induction s with
  | nil => intro p g r h; exact absurd h (by simp [findMatch])
  | cons c s' ih =>
    intro p g r h
    by_cases hp : isPfx opn (c :: s') = true
    · rcases hx : splitFirst cls ((c :: s').drop opn.length) with _ | ⟨g', r'⟩
      · rw [findMatch_cons_nosplit hp hx] at h
        rcases hy : findMatch opn cls s' with _ | ⟨y1, y2, y3⟩
        · rw [hy] at h; exact absurd h (by simp)
        · rw [hy] at h
          simp only [Option.map_some'] at h
          injection h with h'
          cases h'
          rw [reSub_cons_nosplit hp hx, ih hy]
          simp
      · rw [findMatch_cons_match hp hx] at h
        injection h with h'
        cases h'
        rw [reSub_cons_match hopn hp hx]
        simp
    · rw [findMatch_cons_nopfx hp] at h
      rcases hy : findMatch opn cls s' with _ | ⟨y1, y2, y3⟩
      · rw [hy] at h; exact absurd h (by simp)
      · rw [hy] at h
        simp only [Option.map_some'] at h
        injection h with h'
        cases h'
        rw [reSub_cons_nopfx hp, ih hy]
        simp

theorem findMatch_leftmost {opn cls : Str} :
    ∀ {s p g r : Str}, findMatch opn cls s = some (p, g, r) →
      ∀ a b, p ++ opn = (a ++ opn) ++ b → a = p := by
  intro s
  induction s with
  | nil => intro p g r h; exact absurd h (by simp [findMatch])
  | cons c s' ih =>
    intro p g r h a b hab
    by_cases hp : isPfx opn (c :: s') = true
    · rcases hx : splitFirst cls ((c :: s').drop opn.length) with _ | ⟨g', r'⟩
      · rw [findMatch_cons_nosplit hp hx] at h
        rcases hy : findMatch opn cls s' with _ | ⟨y1, y2, y3⟩
        · rw [hy] at h; exact absurd h (by simp)
        · rw [hy] at h
          simp only [Option.map_some'] at h
          injection h with h'
          cases h'
          have hdec := findMatch_some_decomp hy
          rcases a with _ | ⟨a0, a'⟩
          · exfalso
            have hab' : c :: (y1 ++ opn) = opn ++ b := by simpa using hab
            have e1 : c :: s' = opn ++ (((b ++ g) ++ cls) ++ r) := by
              rw [hdec]
              calc c :: ((((y1 ++ opn) ++ g) ++ cls) ++ r)
                  = (c :: (y1 ++ opn)) ++ ((g ++ cls) ++ r) := by simp
                _ = (opn ++ b) ++ ((g ++ cls) ++ r) := by rw [hab']
                _ = opn ++ (((b ++ g) ++ cls) ++ r) := by simp
            have e2 : (c :: s').drop opn.length = ((b ++ g) ++ cls) ++ r := by
              rw [e1, List.drop_left]
            exact splitFirst_none hx (b ++ g) r e2
          · have h5 : c :: (y1 ++ opn) = a0 :: ((a' ++ opn) ++ b) := by simpa using hab
            injection h5 with h5a h5b
            rw [← h5a, ih hy a' b h5b]
      · rw [findMatch_cons_match hp hx] at h
        injection h with h'
        cases h'
        have hlen := congrArg List.length hab
        simp only [List.length_append, List.nil_append] at hlen
        have : a.length = 0 := by omega
        simp [List.length_eq_zero.mp this]
    · rw [findMatch_cons_nopfx hp] at h
      rcases hy : findMatch opn cls s' with _ | ⟨y1, y2, y3⟩
      · rw [hy] at h; exact absurd h (by simp)
      · rw [hy] at h
        simp only [Option.map_some'] at h
        injection h with h'
        cases h'
        have hdec := findMatch_some_decomp hy
        rcases a with _ | ⟨a0, a'⟩
        · exfalso
          apply hp
          have hab' : c :: (y1 ++ opn) = opn ++ b := by simpa using hab
          apply (isPfx_iff _ _).mpr
          refine ⟨((b ++ g) ++ cls) ++ r, ?_⟩
          rw [hdec]
          calc c :: ((((y1 ++ opn) ++ g) ++ cls) ++ r)
              = (c :: (y1 ++ opn)) ++ ((g ++ cls) ++ r) := by simp
            _ = (opn ++ b) ++ ((g ++ cls) ++ r) := by rw [hab']
            _ = opn ++ (((b ++ g) ++ cls) ++ r) := by simp
        · have h5 : c :: (y1 ++ opn) = a0 :: ((a' ++ opn) ++ b) := by simpa using hab
          injection h5 with h5a h5b
          rw [← h5a, ih hy a' b h5b]

theorem reSub_append_skip {opn cls rep : Str} :
    ∀ {p : Str}, (∀ a b, p ++ opn = (a ++ opn) ++ b → a = p) →
      ∀ u, reSub opn cls rep ((p ++ opn) ++ u) = p ++ reSub opn cls rep (opn ++ u) := by
  intro p
  induction p with
  | nil => intro _ u; simp
  | cons c p' ih =>
    intro H u
    have hsh : ((c :: p') ++ opn) ++ u = c :: ((p' ++ opn) ++ u) := by simp
    rw [hsh]
    have hnp : ¬ isPfx opn (c :: ((p' ++ opn) ++ u)) = true := by
      intro hpf
      have hx : ∃ b, (c :: p') ++ opn = opn ++ b := by
        apply pfx_within (by simp only [List.length_append, List.length_cons]; omega)
        obtain ⟨t, ht⟩ := (isPfx_iff _ _).mp hpf
        exact ⟨t, by rw [hsh]; exact ht⟩
      obtain ⟨b, hb⟩ := hx
      have := H [] b (by simpa using hb)
      exact absurd this (by simp)
    rw [reSub_cons_nopfx hnp]
    have H' : ∀ a b, p' ++ opn = (a ++ opn) ++ b → a = p' := by
      intro a b hab
      have hstep : (c :: p') ++ opn = ((c :: a) ++ opn) ++ b := by
        simp only [List.cons_append]
        rw [hab]
      have hca := H (c :: a) b hstep
      injection hca
    rw [ih H' u]
    simp

theorem findMatch_none_of_no_cls {opn cls : Str} :
    ∀ {s : Str}, (∀ a b, s ≠ (a ++ cls) ++ b) → findMatch opn cls s = none := by
  intro s
  induction s with
  | nil => intro _; rfl
  | cons c s' ih =>
    intro H
    have H' : ∀ a b, s' ≠ (a ++ cls) ++ b := by
      intro a b hab
      exact H (c :: a) b (by simp [hab])
    by_cases hp : isPfx opn (c :: s') = true
    · rcases hx : splitFirst cls ((c :: s').drop opn.length) with _ | ⟨g, r⟩
      · rw [findMatch_cons_nosplit hp hx, ih H']
        rfl
      · exfalso
        have hd := splitFirst_some_decomp hx
        have e := List.take_append_drop opn.length (c :: s')
        rw [hd] at e
        refine H ((c :: s').take opn.length ++ g) r ?_
        conv_lhs => rw [← e]
        simp
    · rw [findMatch_cons_nopfx hp, ih H']
      rfl

theorem reSub_step_exact {opn mid cls : Str} (hopn : opn ≠ [])
    (Hsafe : ∀ a b, mid ++ cls = (a ++ cls) ++ b → a = mid) (v : Str) :
    reSub opn cls ((opn ++ mid) ++ cls) (opn ++ ((mid ++ cls) ++ v))
      = ((opn ++ mid) ++ cls) ++ reSub opn cls ((opn ++ mid) ++ cls) v := by
  rcases opn with _ | ⟨o, opn'⟩
  · exact absurd rfl hopn
  · have hsh : (o :: opn') ++ ((mid ++ cls) ++ v) = o :: (opn' ++ ((mid ++ cls) ++ v)) := by simp
    rw [hsh]
    have hp : isPfx (o :: opn') (o :: (opn' ++ ((mid ++ cls) ++ v))) = true :=
      (isPfx_iff _ _).mpr ⟨(mid ++ cls) ++ v, by simp⟩
    have hx : splitFirst cls ((o :: (opn' ++ ((mid ++ cls) ++ v))).drop (o :: opn').length)
        = some (mid, v) := by
      rw [← hsh, List.drop_left]
      exact splitFirst_exact Hsafe v
    rw [reSub_cons_match (by simp) hp hx]

theorem reSub_idem_core {opn mid cls : Str} (hopn : opn ≠ [])
    (Hsafe : ∀ a b, mid ++ cls = (a ++ cls) ++ b → a = mid) :
    ∀ s, reSub opn cls ((opn ++ mid) ++ cls) (reSub opn cls ((opn ++ mid) ++ cls) s)
        = reSub opn cls ((opn ++ mid) ++ cls) s := by
  intro s
  generalize hn : s.length = n
  induction n using Nat.strong_induction_on generalizing s with
  | _ n ih =>
    rcases hm : findMatch opn cls s with _ | ⟨p, g, r⟩
    · rw [findMatch_none_reSub hm]
      exact findMatch_none_reSub hm
    · have hdec := findMatch_some_decomp hm
      have h1 : reSub opn cls ((opn ++ mid) ++ cls) s
          = (p ++ ((opn ++ mid) ++ cls)) ++ reSub opn cls ((opn ++ mid) ++ cls) r :=
        reSub_of_findMatch_some hopn hm
      rw [h1]
      have hshape : (p ++ ((opn ++ mid) ++ cls)) ++ reSub opn cls ((opn ++ mid) ++ cls) r
          = (p ++ opn) ++ ((mid ++ cls) ++ reSub opn cls ((opn ++ mid) ++ cls) r) := by simp
      rw [hshape, reSub_append_skip (findMatch_leftmost hm),
        reSub_step_exact hopn Hsafe]
      have hlt : r.length < n := by
        have hls := congrArg List.length hdec
        simp only [List.length_append] at hls
        have hop : 0 < opn.length := List.length_pos.mpr hopn
        omega
      rw [ih r.length hlt r rfl]
      simp

/-! Bridge lemmas at the level of the script's rewriting functions. -/

theorem python_package_replacement_shape (package_name updated_line : Str) :
    python_package_replacement package_name updated_line
      = (python_package_open_hint package_name ++ ('\n' :: (updated_line ++ [' ', ' '])))
          ++ python_package_close_hint package_name := by
  simp [python_package_replacement]

theorem python_package_open_hint_ne_nil (package_name : Str) :
    python_package_open_hint package_name ≠ [] := by
  simp [python_package_open_hint]

theorem substitute_unchanged_of_no_close {package_name updated_line t : Str}
    (h : ∀ a b, t ≠ (a ++ python_package_close_hint package_name) ++ b) :
    substitute_package_block package_name updated_line t = t :=
  findMatch_none_reSub (findMatch_none_of_no_cls h)

/-! Helper lemmas for the remaining claims. -/

theorem joinSep_cons_eq (sep : Str) : ∀ (h : Str) (t : List Str),
    joinSep sep (h :: t) = h ++ (t.map (fun x => sep ++ x)).flatten := by
  intro h t
  induction t generalizing h with
  | nil => simp [joinSep]
  | cons y t' ih =>
    rw [show joinSep sep (h :: y :: t') = h ++ sep ++ joinSep sep (y :: t') from rfl, ih y]
    simp

theorem pairwise_dropLast_of_odd {α : Type} :
    ∀ (l : List α), l.length % 2 = 1 → pairwise l = pairwise l.dropLast
  | [], h => by simp at h
  | [_], _ => rfl
  | [_, _], h => by simp at h
  | a :: b :: x :: rest', h => by
    have hr : (x :: rest').length % 2 = 1 := by
      simp only [List.length_cons] at h ⊢
      omega
    show (a, b) :: pairwise (x :: rest') = (a, b) :: pairwise ((x :: rest').dropLast)
    rw [pairwise_dropLast_of_odd (x :: rest') hr]

theorem dictInsert_not_mem_append (k : Str) (v : Str × Str) :
    ∀ d : List (Str × Str × Str), k ∉ d.map (fun e => e.1) →
      dictInsert k v d = d ++ [(k, v)]
  | [], _ => rfl
  | e :: d, h => by
    have he : ¬ e.1 = k := by
      intro hk
      exact h (by simp [hk])
    simp only [dictInsert, if_neg he, List.cons_append]
    rw [dictInsert_not_mem_append k v d (by intro hm; exact h (by simp [hm]))]

theorem dictInsert_length_le (k : Str) (v : Str × Str) :
    ∀ d : List (Str × Str × Str), (dictInsert k v d).length ≤ d.length + 1
  | [] => by simp [dictInsert]
  | e :: d => by
    by_cases he : e.1 = k
    · simp [dictInsert, he]
    · simp only [dictInsert, if_neg he, List.length_cons]
      have := dictInsert_length_le k v d
      omega

theorem dictInsert_find (k : Str) (v : Str × Str) :
    ∀ d : List (Str × Str × Str),
      (dictInsert k v d).find? (fun e => decide (e.1 = k)) = some (k, v)
  | [] => by simp [dictInsert]
  | e :: d => by
    by_cases he : e.1 = k
    · simp [dictInsert, he]
    · simp only [dictInsert, if_neg he]
      rw [List.find?_cons_of_neg _ (by simpa using he)]
      exact dictInsert_find k v d

theorem pySplit_foldr_space : ∀ l : Str, l.all isPySpace = true →
    l.foldr pySplitF ([], []) = ([], [])
  | [], _ => rfl
  | c :: l', h => by
    rw [List.all_cons] at h
    obtain ⟨hc, hl⟩ := Bool.and_eq_true_iff.mp h
    rw [List.foldr_cons, pySplit_foldr_space l' hl]
    simp [pySplitF, hc]

theorem pySplit_all_space {l : Str} (h : l.all isPySpace = true) : pySplit l = [] := by
  simp [pySplit, pySplit_foldr_space l h]

theorem not_blank_of_tokens {r : Str} {x y : Str} {rest : List Str}
    (h : pySplit r = x :: y :: rest) : ¬ isBlankAfterStrip r = true := by
  intro hb
  have h0 := pySplit_all_space (by simpa [isBlankAfterStrip] using hb)
  rw [h] at h0
  exact absurd h0 (by simp)

theorem close_tail_unique : ∀ (target nm b : Str),
    nm ++ ']' :: b = target ++ [']'] → ']' ∉ target → nm = target ∧ b = []
  | [], nm, b, h, _ => by
    rcases nm with _ | ⟨x, nm'⟩
    · simp only [List.nil_append] at h
      injection h with _ hb
      exact ⟨rfl, hb⟩
    · exfalso
      simp only [List.nil_append, List.cons_append] at h
      injection h with _ h2
      exact absurd h2 (by simp)
  | t0 :: ts, nm, b, h, hmem => by
    rcases nm with _ | ⟨x, nm'⟩
    · exfalso
      simp only [List.nil_append, List.cons_append] at h
      injection h with h1 _
      exact hmem (by rw [h1]; exact List.mem_cons_self _ _)
    · simp only [List.cons_append] at h
      injection h with h1 h2
      obtain ⟨ha, hb⟩ := close_tail_unique ts nm' b h2 (fun hm => hmem (List.mem_cons_of_mem _ hm))
      exact ⟨by rw [h1, ha], hb⟩

theorem close_occurrence_name {t pkg : Str} {k : Nat}
    (hk : ∀ i : Fin (t.length + 1), (t.drop i.val).take 4 = ['#', ' ', '[', '/'] → i.val = k)
    (htail : t.drop (k + 4) = pkg ++ [']'])
    (hne : ']' ∉ pkg) :
    ∀ name a b, t = (a ++ python_package_close_hint name) ++ b → name = pkg := by
  intro name a b h
  have hsplit : t = (a ++ ['#', ' ', '[', '/']) ++ (name ++ ']' :: b) := by
    rw [h]
    simp [python_package_close_hint]
  have hlen : a.length + 4 ≤ t.length := by
    have hc := congrArg List.length hsplit
    simp only [List.length_append, List.length_cons] at hc
    omega
  have hdrop : t.drop a.length = ['#', ' ', '[', '/'] ++ (name ++ ']' :: b) := by
    rw [show t = a ++ (['#', ' ', '[', '/'] ++ (name ++ ']' :: b)) from by rw [hsplit]; simp]
    exact List.drop_left _ _
  have htake : (t.drop a.length).take 4 = ['#', ' ', '[', '/'] := by
    rw [hdrop, show (4 : Nat) = (['#', ' ', '[', '/'] : Str).length from rfl, List.take_left]
  have hak : a.length = k := hk ⟨a.length, by omega⟩ htake
  have hdrop2 : t.drop (k + 4) = name ++ ']' :: b := by
    rw [← hak, hsplit, show a.length + 4 = (a ++ ['#', ' ', '[', '/'] : Str).length from by simp]
    exact List.drop_left _ _
  rw [hdrop2] at htail
  exact (close_tail_unique pkg name b htail hne).1

/-- Demonstration file holding exactly one `vtk` delimiter pair. -/
def vtk_demo_file : Str := "# [vtk]\nold\n  # [/vtk]".data

/-- Demonstration file holding exactly one `simpleitk` delimiter pair. -/
def simpleitk_demo_file : Str := "# [simpleitk]\nold\n  # [/simpleitk]".data

theorem vtk_demo_no_close {name : Str} (hn : name ≠ "vtk".data) :
    ∀ a b, vtk_demo_file ≠ (a ++ python_package_close_hint name) ++ b := by
  intro a b h
  exact hn (@close_occurrence_name vtk_demo_file "vtk".data 14
    (by decide) (by decide) (by decide) name a b h)

theorem simpleitk_demo_no_close {name : Str} (hn : name ≠ "simpleitk".data) :
    ∀ a b, simpleitk_demo_file ≠ (a ++ python_package_close_hint name) ++ b := by
  intro a b h
  exact hn (@close_occurrence_name simpleitk_demo_file "simpleitk".data 20
    (by decide) (by decide) (by decide) name a b h)

theorem update_file_text_unchanged : ∀ (lns : List (Str × Str)) (t : Str),
    (∀ e ∈ lns, ∀ a b, t ≠ (a ++ python_package_close_hint e.1) ++ b) →
    update_file_text lns t = t
  | [], _, _ => rfl
  | e :: lns', t, h => by
    show update_file_text lns' (substitute_package_block e.1 e.2 t) = t
    rw [substitute_unchanged_of_no_close (h e (by simp))]
    exact update_file_text_unchanged lns' t (fun e' he' => h e' (by simp [he']))

theorem lines_to_write_not_excluded (cpython_tag interpreter_cpython_tag : Str)
    (releases : Str → Str → List ReleaseFile) :
    ∀ (pkgs : List (Str × Str × Str)) (e : Str × Str),
      e ∈ lines_to_write cpython_tag interpreter_cpython_tag releases pkgs →
      ¬ (e.1 = "vtk".data ∨ e.1 = "simpleitk".data)
  | [], e, h => by simp [lines_to_write] at h
  | (pn, cv, lv) :: rest, e, h => by
    simp only [lines_to_write] at h
    split at h
    · exact lines_to_write_not_excluded cpython_tag interpreter_cpython_tag releases rest e h
    · next hex =>
      split at h
      · exact lines_to_write_not_excluded cpython_tag interpreter_cpython_tag releases rest e h
      · rcases List.mem_cons.mp h with hE | hE
        · intro hcon
          rw [hE] at hcon
          exact hex hcon
        · exact lines_to_write_not_excluded cpython_tag interpreter_cpython_tag releases rest e hE

theorem containsSub_iff (pat s : Str) :
    containsSub pat s = true ↔ ∃ a b, s = (a ++ pat) ++ b := by
  unfold containsSub
  constructor
  · intro h
    rcases hx : splitFirst pat s with _ | ⟨a, b⟩
    · rw [hx] at h; simp at h
    · exact ⟨a, b, splitFirst_some_decomp hx⟩
  · rintro ⟨a, b, hab⟩
    rcases hx : splitFirst pat s with _ | x
    · exact absurd hab (splitFirst_none hx a b)
    · rfl

theorem isSfx_iff (p s : Str) : isSfx p s = true ↔ ∃ a, s = a ++ p := by
  unfold isSfx
  rw [isPfx_iff]
  constructor
  · rintro ⟨t, ht⟩
    refine ⟨t.reverse, ?_⟩
    have h2 := congrArg List.reverse ht
    simpa using h2
  · rintro ⟨a, rfl⟩
    exact ⟨a.reverse, by simp⟩

theorem collect_release_files_eq (cpython_tag : Str) : ∀ files : List ReleaseFile,
    collect_release_files cpython_tag files =
      ((files.filter (keep_release_file cpython_tag)).map (fun rf => "  #  - ".data ++ rf.filename),
       (files.filter (keep_release_file cpython_tag)).map (fun rf => "--hash=sha256:".data ++ rf.sha256))
  | [] => rfl
  | rf :: files => by
    by_cases hk : keep_release_file cpython_tag rf = true
    · simp only [collect_release_files, if_pos hk, List.filter_cons_of_pos hk, List.map_cons,
        collect_release_files_eq cpython_tag files]
    · simp only [collect_release_files, if_neg hk,
        List.filter_cons_of_neg (by simpa using hk),
        collect_release_files_eq cpython_tag files]

theorem pairwise_paired {α : Type} (f g : α → α) : ∀ (names : List α),
    pairwise ((names.map (fun n => [f n, g n])).flatten) = names.map (fun n => (f n, g n))
  | [] => rfl
  | n :: names => by
    show (f n, g n) :: pairwise ((names.map (fun n => [f n, g n])).flatten)
        = (f n, g n) :: names.map (fun n => (f n, g n))
    rw [pairwise_paired f g names]

theorem file_hint_mismatches_of_paired {filepath text : Str} {names : List Str}
    (h : file_hints text = (names.map (fun n => [n, '/' :: n])).flatten) :
    file_hint_mismatches filepath text = [] := by
  unfold file_hint_mismatches
  rw [h, pairwise_paired (fun n => n) (fun n => '/' :: n) names]
  simp

theorem parse_pip_rows_cons_tokens {row n c : Str} {rest : List Str}
    (hs : pySplit row = n :: c :: rest) (d : List (Str × Str × Str)) (rows : List Str) :
    parse_pip_rows d (row :: rows) = parse_pip_rows (dictInsert n (c, rest.headD c) d) rows := by
  have hnb := not_blank_of_tokens hs
  simp only [parse_pip_rows]
  rw [if_neg hnb, hs]

theorem parse_pip_rows_wf :
    ∀ (rows : List Str) (d : List (Str × Str × Str)),
      (∀ r ∈ rows, ∃ n c rest, pySplit r = n :: c :: rest) →
      ∃ m, parse_pip_rows d rows = some m ∧ m.length ≤ d.length + rows.length ∧
        ((d.map (fun e => e.1) ++ rows.map (fun r => (pySplit r).headD [])).Nodup →
          m.length = d.length + rows.length)
  | [], d, _ => ⟨d, rfl, by simp, by simp⟩
  | row :: rows, d, h => by
    obtain ⟨n, c, rest, hs⟩ := h row (by simp)
    obtain ⟨m, hm, hle, hexact⟩ :=
      parse_pip_rows_wf rows (dictInsert n (c, rest.headD c) d) (fun r hr => h r (by simp [hr]))
    refine ⟨m, ?_, ?_, ?_⟩
    · rw [parse_pip_rows_cons_tokens hs d rows]
      exact hm
    · have hd := dictInsert_length_le n (c, rest.headD c) d
      simp only [List.length_cons]
      omega
    · intro hnd
      have hmaps : (row :: rows).map (fun r => (pySplit r).headD [])
          = n :: rows.map (fun r => (pySplit r).headD []) := by
        simp [hs]
      rw [hmaps] at hnd
      have hn_notin : n ∉ d.map (fun e => e.1) := by
        intro hmem
        rcases List.nodup_append.mp hnd with ⟨_, _, hdisj⟩
        exact hdisj hmem (by simp)
      have happ := dictInsert_not_mem_append n (c, rest.headD c) d hn_notin
      have hkeys : (dictInsert n (c, rest.headD c) d).map (fun e => e.1)
          ++ rows.map (fun r => (pySplit r).headD [])
          = d.map (fun e => e.1) ++ (n :: rows.map (fun r => (pySplit r).headD [])) := by
        rw [happ]
        simp
      have hlen2 := hexact (by rw [hkeys]; exact hnd)
      have hdl : (dictInsert n (c, rest.headD c) d).length = d.length + 1 := by
        rw [happ]
        simp
      simp only [List.length_cons]
      omega

theorem update_file_text_unchanged_of_nomatch : ∀ (lns : List (Str × Str)) (t : Str),
    (∀ e ∈ lns, findMatch (python_package_open_hint e.1) (python_package_close_hint e.1) t = none) →
    update_file_text lns t = t
  | [], _, _ => rfl
  | e :: lns', t, h => by
    show update_file_text lns' (substitute_package_block e.1 e.2 t) = t
    rw [show substitute_package_block e.1 e.2 t = t from findMatch_none_reSub (h e (by simp))]
    exact update_file_text_unchanged_of_nomatch lns' t (fun e' he' => h e' (by simp [he']))

/-! Claim theorems. -/

/-- Claim C1: the Block Rewriter leaves every byte outside the matched
spans unchanged.  First conjunct: a file in which the pattern of some
package does not match at all is written back byte-identical.  Second
conjunct: when the pattern matches, the file splits as
`p ++ open ++ gap ++ close ++ rest` and the rewritten file is exactly the
untouched prefix `p`, then the replacement, then the (recursively
rewritten) remainder `rest` — so all bytes before, between and after
matched spans are preserved.  Third conjunct: a file with no delimiter
pair for any updated package is unchanged by the whole rewriting loop. -/
theorem C1_block_rewriter_frame (package_name updated_line : Str) :
    (∀ t, findMatch (python_package_open_hint package_name)
        (python_package_close_hint package_name) t = none →
      substitute_package_block package_name updated_line t = t) ∧
    (∀ t p g r, findMatch (python_package_open_hint package_name)
        (python_package_close_hint package_name) t = some (p, g, r) →
      t = ((p ++ python_package_open_hint package_name) ++ g)
            ++ python_package_close_hint package_name ++ r ∧
      substitute_package_block package_name updated_line t
        = (p ++ python_package_replacement package_name updated_line)
            ++ substitute_package_block package_name updated_line r) ∧
    (∀ lns t, (∀ e ∈ lns,
        findMatch (python_package_open_hint e.1) (python_package_close_hint e.1) t = none) →
      update_file_text lns t = t) := by
  refine ⟨?_, ?_, ?_⟩
  · intro t h
    exact findMatch_none_reSub h
  · intro t p g r h
    exact ⟨findMatch_some_decomp h,
      reSub_of_findMatch_some (python_package_open_hint_ne_nil package_name) h⟩
  · intro lns t h
    exact update_file_text_unchanged_of_nomatch lns t h

theorem C1_block_rewriter_frame_witness :
    substitute_package_block "foo".data "B\n".data "no tags here".data = "no tags here".data ∧
    substitute_package_block "foo".data "B\n".data "x# [foo]g# [/foo]y".data
      = ("x".data ++ python_package_replacement "foo".data "B\n".data)
          ++ substitute_package_block "foo".data "B\n".data "y".data := by
  constructor
  · exact (C1_block_rewriter_frame "foo".data "B\n".data).1 "no tags here".data (by decide)
  · exact ((C1_block_rewriter_frame "foo".data "B\n".data).2.1
      "x# [foo]g# [/foo]y".data "x".data "g".data "y".data (by decide)).2

/-- Claim C3: the orchestrator always validates first; the exit code is
non-zero exactly when at least one mismatch exists, and whenever the
validate-only flag is set or a mismatch exists the run stops before the
update phase, leaving every file byte-identical. -/
theorem C3_orchestrator_validation_gate :
    (∀ (validate : Bool) (files : List (Str × Str)) update_phase,
      (script_main validate files update_phase).1 ≠ 0 ↔
        validate_external_project_python_package_hints files ≠ []) ∧
    (∀ (validate : Bool) (files : List (Str × Str)) update_phase,
      (validate = true ∨ validate_external_project_python_package_hints files ≠ []) →
      (script_main validate files update_phase).2 = files) := by
  constructor
  · intro validate files update_phase
    simp only [script_main]
    by_cases hv : validate = true ∨ validate_external_project_python_package_hints files ≠ []
    · rw [if_pos hv]
      by_cases hm : validate_external_project_python_package_hints files = []
      · simp [hm]
      · simp [hm]
    · rw [if_neg hv]
      push_neg at hv
      simp [hv.2]
  · intro validate files update_phase h
    simp only [script_main]
    rw [if_pos h]

theorem C3_orchestrator_validation_gate_witness :
    (script_main true [("f".data, "# [a]\nx\n# [/a]".data)] (fun _ => [])).2
      = [("f".data, "# [a]\nx\n# [/a]".data)] :=
  C3_orchestrator_validation_gate.2 true [("f".data, "# [a]\nx\n# [/a]".data)]
    (fun _ => []) (Or.inl rfl)

/-- Claim C4: the Delimiter Validator returns the empty list when every
file consists of correctly paired, matching-name blocks (each scanned hint
sequence is a concatenation of pairs `name, /name`), and for a file whose
scan yields exactly one pair whose close tag names a different package it
returns exactly the one tuple `(filepath, first, second with the leading
slash stripped)`. -/
theorem C4_validator_results :
    (∀ files : List (Str × Str),
      (∀ f ∈ files, ∃ names : List Str,
        file_hints f.2 = (names.map (fun n => [n, '/' :: n])).flatten) →
      validate_external_project_python_package_hints files = []) ∧
    (∀ filepath text n m : Str, file_hints text = [n, '/' :: m] → n ≠ m →
      file_hint_mismatches filepath text = [(filepath, n, m)] ∧
      validate_external_project_python_package_hints [(filepath, text)] = [(filepath, n, m)]) := by
  constructor
  · intro files h
    unfold validate_external_project_python_package_hints
    rw [List.flatten_eq_nil_iff]
    intro x hx
    obtain ⟨f, hf, rfl⟩ := List.mem_map.mp hx
    obtain ⟨names, hn⟩ := h f hf
    exact file_hint_mismatches_of_paired hn
  · intro filepath text n m h hne
    have hfm : file_hint_mismatches filepath text = [(filepath, n, m)] := by
      unfold file_hint_mismatches
      rw [h]
      show List.filterMap _ [(n, '/' :: m)] = [(filepath, n, m)]
      simp [hne]
    refine ⟨hfm, ?_⟩
    unfold validate_external_project_python_package_hints
    simp [hfm]

theorem C4_validator_results_witness :
    validate_external_project_python_package_hints
        [("f1".data, "# [aa]\nxx\n# [/aa]".data)] = [] ∧
    file_hint_mismatches "f2".data "# [aa]\nxx\n# [/bb]".data
      = [("f2".data, "aa".data, "bb".data)] := by
  constructor
  · exact C4_validator_results.1 [("f1".data, "# [aa]\nxx\n# [/aa]".data)]
      (by
        intro f hf
        simp only [List.mem_singleton] at hf
        subst hf
        exact ⟨["aa".data], by decide⟩)
  · exact (C4_validator_results.2 "f2".data "# [aa]\nxx\n# [/bb]".data "aa".data "bb".data
      (by decide) (by decide)).1

/-- Claim C9: the pairwise grouping silently drops a trailing unmatched
token — on a hint sequence of odd length the grouping equals the grouping
of the sequence without its last token — and a file whose scan yields a
single unpaired opening tag produces no mismatch. -/
theorem C9_odd_token_dropped :
    (∀ l : List Str, l.length % 2 = 1 → pairwise l = pairwise l.dropLast) ∧
    (∀ filepath text n : Str, file_hints text = [n] →
      file_hint_mismatches filepath text = []) := by
  constructor
  · intro l h
    exact pairwise_dropLast_of_odd l h
  · intro filepath text n h
    unfold file_hint_mismatches
    rw [h]
    rfl

theorem C9_odd_token_dropped_witness :
    pairwise ["a".data, "b".data, "c".data]
      = pairwise (["a".data, "b".data, "c".data].dropLast) ∧
    file_hint_mismatches "f".data "# [abc]\nxx".data = [] := by
  constructor
  · exact C9_odd_token_dropped.1 ["a".data, "b".data, "c".data] (by decide)
  · exact C9_odd_token_dropped.2 "f".data "# [abc]\nxx".data "abc".data (by decide)

/-- Claim C2 counterexample: a well-formed listing with two header lines
and one data row of two tokens but no trailing blank line yields an empty
mapping — the loop bound `range(2, len - 1)` drops the final line
unconditionally, so the claimed `exactly N entries` fails (here N = 1 but
the result has 0 entries). -/
theorem C2_counterexample :
    pySplit "aaa 1.0".data = ["aaa".data, "1.0".data] ∧
    parse_pip_list_output ["Package Version".data, "------- -------".data, "aaa 1.0".data]
      = some [] := by
  constructor <;> decide

/-- Claim C2 as amended: with the trailing blank line present the parser
processes exactly the N data rows (first conjunct); processing stops at a
blank line (second); a three-or-more-column row `n c v ...` inserts
`n -> (c, v)` and a two-column row `n c` inserts `n -> (c, c)` (third and
fourth); on rows that each have at least two tokens the result has at most
N entries, and exactly N when the names are distinct (fifth); a repeated
name keeps the last assigned value (sixth).  Without the trailing blank
line the final data row is silently dropped (see the counterexample). -/
theorem C2_listing_parser_amended :
    (∀ h1 h2 : Str, ∀ rows : List Str,
      parse_pip_list_output (h1 :: h2 :: (rows ++ [[]])) = parse_pip_rows [] rows) ∧
    (∀ d (line : Str) rest, isBlankAfterStrip line = true →
      parse_pip_rows d (line :: rest) = some d) ∧
    (∀ d (line n c v : Str) (more : List Str) rest, pySplit line = n :: c :: v :: more →
      parse_pip_rows d (line :: rest) = parse_pip_rows (dictInsert n (c, v) d) rest) ∧
    (∀ d (line n c : Str) rest, pySplit line = [n, c] →
      parse_pip_rows d (line :: rest) = parse_pip_rows (dictInsert n (c, c) d) rest) ∧
    (∀ rows : List Str, (∀ r ∈ rows, ∃ n c rest, pySplit r = n :: c :: rest) →
      ∃ m, parse_pip_rows [] rows = some m ∧ m.length ≤ rows.length ∧
        ((rows.map (fun r => (pySplit r).headD [])).Nodup → m.length = rows.length)) ∧
    (∀ k v d, (dictInsert k v d).find? (fun e => decide (e.1 = k)) = some (k, v)) := by
  refine ⟨?_, ?_, ?_, ?_, ?_, ?_⟩
  · intro h1 h2 rows
    unfold parse_pip_list_output
    congr 1
    show ((h1 :: h2 :: (rows ++ [[]])).drop 2).dropLast = rows
    simp
  · intro d line rest h
    simp only [parse_pip_rows]
    rw [if_pos h]
  · intro d line n c v more rest h
    rw [parse_pip_rows_cons_tokens h]
    rfl
  · intro d line n c rest h
    rw [parse_pip_rows_cons_tokens h]
    rfl
  · intro rows h
    simpa using parse_pip_rows_wf rows [] h
  · intro k v d
    exact dictInsert_find k v d

theorem C2_listing_parser_amended_witness :
    parse_pip_list_output
        ["Package Version".data, "------- -------".data, "aaa 1.0 2.0".data, "bbb 3.0".data, []]
      = parse_pip_rows [] ["aaa 1.0 2.0".data, "bbb 3.0".data] ∧
    parse_pip_rows [] ["bb 2".data] = parse_pip_rows (dictInsert "bb".data ("2".data, "2".data) []) [] ∧
    (∃ m, parse_pip_rows [] ["aaa 1.0 2.0".data, "bbb 3.0".data] = some m ∧ m.length ≤ 2 ∧
      (((["aaa 1.0 2.0".data, "bbb 3.0".data] : List Str).map
          (fun r => (pySplit r).headD [])).Nodup → m.length = 2)) := by
  refine ⟨?_, ?_, ?_⟩
  · exact C2_listing_parser_amended.1 "Package Version".data "------- -------".data
      ["aaa 1.0 2.0".data, "bbb 3.0".data]
  · exact C2_listing_parser_amended.2.2.2.1 [] "bb 2".data "bb".data "2".data [] (by decide)
  · exact C2_listing_parser_amended.2.2.2.2.1 ["aaa 1.0 2.0".data, "bbb 3.0".data]
      (by
        intro r hr
        simp only [List.mem_cons, List.not_mem_nil, or_false] at hr
        rcases hr with rfl | rfl
        · exact ⟨"aaa".data, "1.0".data, ["2.0".data], by decide⟩
        · exact ⟨"bbb".data, "3.0".data, [], by decide⟩)

/-- Claim C5: the Release Selector keeps a release file iff its declared
`python_version` is `py3`, `py2.py3` or the target tag, or its filename
contains `abi3`; and its `packagetype` is `bdist_wheel`; and its filename
ends with `py3-none-any.whl`, `64.whl` or `universal2.whl` (first two
conjuncts: the boolean filter and the accumulation loop agree with this
characterisation).  In particular a version whose only artifacts are a
source distribution or a 32-bit wheel produces no block at all (last two
conjuncts). -/
theorem C5_release_selector_filter :
    (∀ (cpython_tag : Str) (rf : ReleaseFile),
      keep_release_file cpython_tag rf = true ↔
        ((rf.python_version = "py3".data ∨ rf.python_version = "py2.py3".data ∨
            rf.python_version = cpython_tag) ∨
          ∃ a b, rf.filename = (a ++ "abi3".data) ++ b) ∧
        rf.packagetype = "bdist_wheel".data ∧
        ((∃ a, rf.filename = a ++ "py3-none-any.whl".data) ∨
         (∃ a, rf.filename = a ++ "64.whl".data) ∨
         (∃ a, rf.filename = a ++ "universal2.whl".data))) ∧
    (∀ (cpython_tag : Str) (files : List ReleaseFile),
      collect_release_files cpython_tag files =
        ((files.filter (keep_release_file cpython_tag)).map
            (fun rf => "  #  - ".data ++ rf.filename),
         (files.filter (keep_release_file cpython_tag)).map
            (fun rf => "--hash=sha256:".data ++ rf.sha256))) ∧
    generated_package_text "cp39".data "foo".data "2.0.0".data
        [⟨"foo-2.0.0.tar.gz".data, "source".data, "sdist".data, "cc".data⟩] = none ∧
    generated_package_text "cp39".data "foo".data "2.0.0".data
        [⟨"foo-2.0.0-cp39-cp39-win32.whl".data, "cp39".data, "bdist_wheel".data, "dd".data⟩]
      = none := by
  refine ⟨?_, ?_, by decide, by decide⟩
  · intro cpython_tag rf
    unfold keep_release_file
    simp only [Bool.and_eq_true, Bool.or_eq_true, decide_eq_true_eq,
      containsSub_iff, isSfx_iff]
    tauto
  · intro cpython_tag files
    exact collect_release_files_eq cpython_tag files

/-- Claim C6 counterexample: for a package with exactly one surviving
artifact the generated block is NOT the claimed two-line form with a
backslash continuation — the hash joiner is only inserted between two
hashes, so the block is the single line
`  foo==2.0.0 --hash=sha256:deadbeef`. -/
theorem C6_counterexample :
    generated_package_text "cp39".data "foo".data "2.0.0".data
        [⟨"foo-2.0.0-py3-none-any.whl".data, "py3".data, "bdist_wheel".data, "deadbeef".data⟩]
      = some "  foo==2.0.0 --hash=sha256:deadbeef".data ∧
    "  foo==2.0.0 --hash=sha256:deadbeef".data
      ≠ "  foo==2.0.0 \\\n    --hash=sha256:deadbeef".data := by
  constructor <;> decide

/-- Claim C6 as amended: with exactly one surviving artifact the generated
block is the version-pin prefix and the single hash argument on one line
(no backslash continuation, no `Hashes correspond` comment header), and
rewriting the file `# [foo]\nold text\n  # [/foo]` with the stored line
(block text plus newline) yields
`# [foo]\n  foo==2.0.0 --hash=sha256:deadbeef\n  # [/foo]`. -/
theorem C6_single_artifact_block_amended :
    generated_package_text "cp39".data "foo".data "2.0.0".data
        [⟨"foo-2.0.0-py3-none-any.whl".data, "py3".data, "bdist_wheel".data, "deadbeef".data⟩]
      = some "  foo==2.0.0 --hash=sha256:deadbeef".data ∧
    containsSub "# Hashes correspond to the following packages:".data
      "  foo==2.0.0 --hash=sha256:deadbeef".data = false ∧
    substitute_package_block "foo".data ("  foo==2.0.0 --hash=sha256:deadbeef".data ++ ['\n'])
        "# [foo]\nold text\n  # [/foo]".data
      = "# [foo]\n  foo==2.0.0 --hash=sha256:deadbeef\n  # [/foo]".data := by
  refine ⟨by decide, by decide, by decide⟩

/-- Claim C7: when more than one hash survives, every hash continuation
line after the first is written after a space, a backslash and a newline,
indented by exactly `(simple_package_version ...).length` spaces — the
length of the version-pin prefix `  <name>==<version> ` including its
trailing space — so the hash arguments align vertically, byte-exactly. -/
theorem C7_hash_alignment (package_name desired_version h1 h2 : Str) (t : List Str) :
    all_hashes package_name desired_version (h1 :: h2 :: t)
      = (simple_package_version package_name desired_version ++ h1)
        ++ ((h2 :: t).map (fun x =>
              (' ' :: '\\' :: '\n' ::
                List.replicate (simple_package_version package_name desired_version).length ' ')
                ++ x)).flatten := by
  unfold all_hashes hashes_joiner_text
  rw [joinSep_cons_eq]
  have hj : " \\\n".data = [' ', '\\', '\n'] := by decide
  rw [hj]
  simp

/-- Claim C8 counterexample: rewriting is NOT idempotent for every file
and every block — with the block text `# [/foo]` (which contains the
closing delimiter) the second rewrite of `# [foo]x# [/foo]` produces a
longer file than the first. -/
theorem C8_counterexample :
    substitute_package_block "foo".data "# [/foo]\n".data
        (substitute_package_block "foo".data "# [/foo]\n".data "# [foo]x# [/foo]".data)
      ≠ substitute_package_block "foo".data "# [/foo]\n".data "# [foo]x# [/foo]".data := by
  decide

/-- Claim C8 as amended: rewriting a file with a stored block line and
then rewriting the result with the identical line is idempotent for every
block whose framed text (a newline, the stored line, two spaces) contains
the closing delimiter `# [/name]` only at its very end — in particular for
every block not containing the closing delimiter, which covers every block
the Release Selector generates.  The hypothesis is the decidable statement
that the first occurrence of the closing delimiter in the framed
replacement tail is the final one. -/
theorem C8_idempotent_amended (package_name updated_line t : Str)
    (H : splitFirst (python_package_close_hint package_name)
        (('\n' :: (updated_line ++ [' ', ' '])) ++ python_package_close_hint package_name)
      = some ('\n' :: (updated_line ++ [' ', ' ']), [])) :
    substitute_package_block package_name updated_line
        (substitute_package_block package_name updated_line t)
      = substitute_package_block package_name updated_line t := by
  have Hsafe : ∀ a b,
      ('\n' :: (updated_line ++ [' ', ' '])) ++ python_package_close_hint package_name
        = (a ++ python_package_close_hint package_name) ++ b →
      a = '\n' :: (updated_line ++ [' ', ' ']) := by
    intro a b hab
    have hmin := splitFirst_min H a b hab
    have hlen := congrArg List.length hab
    simp only [List.length_append, List.length_cons, List.length_nil] at hlen hmin
    have hlen2 : ('\n' :: (updated_line ++ [' ', ' '])).length = a.length := by
      simp only [List.length_append, List.length_cons, List.length_nil]
      omega
    have h2 : ('\n' :: (updated_line ++ [' ', ' '])) ++ python_package_close_hint package_name
        = a ++ (python_package_close_hint package_name ++ b) := by
      rw [hab]
      simp
    exact ((List.append_inj h2 hlen2).1).symm
  have hcore := @reSub_idem_core (python_package_open_hint package_name)
    ('\n' :: (updated_line ++ [' ', ' ']))
    (python_package_close_hint package_name)
    (python_package_open_hint_ne_nil package_name) Hsafe t
  unfold substitute_package_block
  rw [python_package_replacement_shape]
  exact hcore

theorem C8_idempotent_amended_witness :
    substitute_package_block "foo".data "  foo==2.0.0 --hash=sha256:dead\n".data
        (substitute_package_block "foo".data "  foo==2.0.0 --hash=sha256:dead\n".data
          "pre\n# [foo]\nold\n  # [/foo]\npost".data)
      = substitute_package_block "foo".data "  foo==2.0.0 --hash=sha256:dead\n".data
          "pre\n# [foo]\nold\n  # [/foo]\npost".data :=
  C8_idempotent_amended "foo".data "  foo==2.0.0 --hash=sha256:dead\n".data
    "pre\n# [foo]\nold\n  # [/foo]\npost".data (by decide)

/-- Claim C10: packages named exactly `vtk` and `simpleitk` are always
skipped: for any inputs, no entry of `lines_to_write` is named `vtk` or
`simpleitk` (first conjunct); a rewriting pass whose entries avoid those
names leaves a file consisting of a `vtk` (respectively `simpleitk`)
delimited block untouched (second and third conjuncts); consequently the
full update pass, on any inputs, writes such files back byte-identical
(fourth conjunct). -/
theorem C10_vtk_simpleitk_skipped :
    (∀ (cpython_tag interpreter_cpython_tag : Str)
        (releases : Str → Str → List ReleaseFile) (pkgs : List (Str × Str × Str))
        (e : Str × Str),
      e ∈ lines_to_write cpython_tag interpreter_cpython_tag releases pkgs →
      e.1 ≠ "vtk".data ∧ e.1 ≠ "simpleitk".data) ∧
    (∀ lns : List (Str × Str), (∀ e ∈ lns, e.1 ≠ "vtk".data) →
      update_file_text lns vtk_demo_file = vtk_demo_file) ∧
    (∀ lns : List (Str × Str), (∀ e ∈ lns, e.1 ≠ "simpleitk".data) →
      update_file_text lns simpleitk_demo_file = simpleitk_demo_file) ∧
    (∀ (cpython_tag interpreter_cpython_tag : Str)
        (releases : Str → Str → List ReleaseFile) (pkgs : List (Str × Str × Str))
        (p1 p2 : Str),
      update_external_project_python_packages cpython_tag interpreter_cpython_tag releases pkgs
          [(p1, vtk_demo_file), (p2, simpleitk_demo_file)]
        = [(p1, vtk_demo_file), (p2, simpleitk_demo_file)]) := by
  refine ⟨?_, ?_, ?_, ?_⟩
  · intro ct it rel pkgs e he
    have h := lines_to_write_not_excluded ct it rel pkgs e he
    exact ⟨fun h1 => h (Or.inl h1), fun h2 => h (Or.inr h2)⟩
  · intro lns h
    exact update_file_text_unchanged lns vtk_demo_file
      (fun e he a b hab => vtk_demo_no_close (h e he) a b hab)
  · intro lns h
    exact update_file_text_unchanged lns simpleitk_demo_file
      (fun e he a b hab => simpleitk_demo_no_close (h e he) a b hab)
  · intro ct it rel pkgs p1 p2
    simp only [update_external_project_python_packages, List.map_cons, List.map_nil]
    have hlns := lines_to_write_not_excluded ct it rel pkgs
    rw [update_file_text_unchanged _ vtk_demo_file
        (fun e he a b hab => vtk_demo_no_close (fun h1 => hlns e he (Or.inl h1)) a b hab),
      update_file_text_unchanged _ simpleitk_demo_file
        (fun e he a b hab => simpleitk_demo_no_close (fun h2 => hlns e he (Or.inr h2)) a b hab)]

theorem C10_vtk_simpleitk_skipped_witness :
    (("foo".data, "  foo==2 --hash=sha256:dd\n".data).1 ≠ "vtk".data ∧
      ("foo".data, "  foo==2 --hash=sha256:dd\n".data).1 ≠ "simpleitk".data) ∧
    update_file_text [("foo".data, "B\n".data)] vtk_demo_file = vtk_demo_file := by
  constructor
  · exact C10_vtk_simpleitk_skipped.1 "cp39".data "cp39".data
      (fun _ _ => [⟨"foo-2-py3-none-any.whl".data, "py3".data, "bdist_wheel".data, "dd".data⟩])
      [("foo".data, "1".data, "2".data)]
      ("foo".data, "  foo==2 --hash=sha256:dd\n".data) (by decide)
  · exact C10_vtk_simpleitk_skipped.2.1 [("foo".data, "B\n".data)]
      (by
        intro e he
        simp only [List.mem_singleton] at he
        subst he
        decide)
